import Mathlib

/-!
# Verification of the tvdatafeed chunked-range fetcher

Shallow embedding of the data model and operations of the repository:

* `src/bars.py` — `count_bars` over `pd.date_range`.
* `src/genspark.py` — `TvDatafeedTimeRange.get_hist_by_date_range` (bar-count
  estimation, clamping, inclusive date filtering) and
  `get_hist_large_date_range` (forward chunking loop, concat + de-duplicate +
  sort stitching).
* `src/split_and_download.py` — `calculate_bars_needed`, the `interval_map`
  validation in `__main__`, the inclusive filter of `try_direct_download`, and
  `apply_timezone_adjustments`.

Timestamps are modelled as integers (seconds); `timedelta(days=n)` is
`n * 86400` and `(end - start).days` is floor division by `86400`.  Bar rows
are a timestamp plus an opaque payload (open/high/low/close/volume are never
inspected by this code).  The vendor `get_hist` call is a function parameter
`fetch : Int → Option (List Row)`: it receives only `n_bars` (the code passes
symbol/exchange unchanged, and the vendor returns "the last n bars as of
now"); `none` models an exception or a `None` result, both of which the
caller treats the same way.  Python float arithmetic on the bar-per-day table
is modelled with exact rationals; `int(...)` is truncation toward zero and
`math.ceil` is the rational ceiling.
-/

namespace Tv

/-- One row of market data: a timestamp index plus opaque payload
(open/high/low/close/volume, never inspected). -/
structure Row where
  ts : Int
  payload : Int
deriving DecidableEq

/-- The `tvDatafeed` `Interval` enumeration (the vendor client's closed set
of interval constants, as listed in the `bars_per_day` dict of
`src/genspark.py`). -/
inductive Interval where
  | in_1_minute
  | in_3_minute
  | in_5_minute
  | in_15_minute
  | in_30_minute
  | in_45_minute
  | in_1_hour
  | in_2_hour
  | in_3_hour
  | in_4_hour
  | in_daily
  | in_weekly
  | in_monthly
deriving DecidableEq

/-- Seconds per day; `timedelta(days=1)` in the chunking loop. -/
def secondsPerDay : Int := 86400

/-- `(end - start).days` of a Python `timedelta`: floor division of the
span in seconds by 86400. -/
def date_diff_days (s e : Int) : Int := (e - s).fdiv secondsPerDay

/-- Python `int()` on a rational value: truncation toward zero. -/
def pyInt (q : ℚ) : Int := if 0 ≤ q then q.floor else q.ceil

/-! ## src/bars.py -/

/-- `pd.date_range(start, end, freq)`: the points `start + k * freq` for
`k = 0, 1, ...` while the point is `≤ end`, both endpoints inclusive; empty
when `start > end`.  (`freq` is a positive duration.) -/
def date_range (s e p : Int) : List Int :=
  if 0 < p ∧ s ≤ e then
    (List.range ((e - s).toNat / p.toNat + 1)).map fun k : Nat => s + (k : Int) * p
  else []

/-- `count_bars` from `src/bars.py`: length of the `date_range`, minus one
when the last generated point hits `end` exactly. -/
def count_bars (s e p : Int) : Nat :=
  let rng := date_range s e p
  match rng.getLast? with
  | some x => if x = e then rng.length - 1 else rng.length
  | none => rng.length

/-! ## src/genspark.py -/

/-- The `bars_per_day` dict of `TvDatafeedTimeRange.__init__`
(`src/genspark.py` lines 19-33).  The dict covers every `Interval`
constructor, so the `.get(interval, 1)` default never fires. -/
def bars_per_day : Interval → ℚ
  | .in_1_minute => 1440
  | .in_3_minute => 480
  | .in_5_minute => 288
  | .in_15_minute => 96
  | .in_30_minute => 48
  | .in_45_minute => 32
  | .in_1_hour => 24
  | .in_2_hour => 12
  | .in_3_hour => 8
  | .in_4_hour => 6
  | .in_daily => 1
  | .in_weekly => 1 / 7
  | .in_monthly => 1 / 30

/-- The `n_bars` value computed by `get_hist_by_date_range`
(`src/genspark.py` lines 96-107):
`estimated = ceil(date_diff * bars_per_day * 1.2)`, then
`min(.., 5000)`, then `max(.., 100)`. -/
def estimated_bars (s e : Int) (i : Interval) : Int :=
  max (min (((date_diff_days s e : ℚ) * bars_per_day i * (12 / 10)).ceil) 5000) 100

/-- The date filter `data[(data.index >= start) & (data.index <= end)]` of
`get_hist_by_date_range` (`src/genspark.py` line 135); the identical filter
appears in `try_direct_download` (`src/split_and_download.py` line 64). -/
def filter_date_range (s e : Int) (df : List Row) : List Row :=
  df.filter fun r => decide (s ≤ r.ts ∧ r.ts ≤ e)

/-- `get_hist_by_date_range` (`src/genspark.py`): fetch `estimated_bars`
bars; on an exception or a `None`/empty table return `None`; otherwise
return the table filtered to the (inclusive) date range. -/
def get_hist_by_date_range (fetch : Int → Option (List Row)) (i : Interval)
    (s e : Int) : Option (List Row) :=
  match fetch (estimated_bars s e i) with
  | none => none
  | some data => if data.isEmpty then none else some (filter_date_range s e data)

/-- The chunk-planning loop of `get_hist_large_date_range`
(`src/genspark.py` lines 179-196), with the per-iteration state made
explicit: while `current < end`, emit the chunk
`(current, min (current + chunk_days * day) end)` and continue from
`chunk_end + 1 day`.  The `Nat` fuel is `(end - current).toNat`, an upper
bound on the iteration count since every iteration advances `current` by at
least one day. -/
def plan_chunks_aux : Nat → Int → Int → Nat → List (Int × Int)
  | 0, _, _, _ => []
  | n + 1, cur, e, cd =>
    if cur < e then
      (cur, min (cur + (cd : Int) * secondsPerDay) e) ::
        plan_chunks_aux n (min (cur + (cd : Int) * secondsPerDay) e + secondsPerDay) e cd
    else []

/-- The list of `(current_date, chunk_end)` pairs produced by the loop of
`get_hist_large_date_range` for range `[s, e]` and `chunk_days = cd`. -/
def plan_chunks (s e : Int) (cd : Nat) : List (Int × Int) :=
  plan_chunks_aux (e - s).toNat s e cd

/-- `combined_data[~combined_data.index.duplicated(keep='first')]`: keep a
row only if its timestamp has not been kept before.  `seen` is the set of
timestamps already kept. -/
def dedup_first_aux : List Int → List Row → List Row
  | _, [] => []
  | seen, r :: rest =>
    if r.ts ∈ seen then dedup_first_aux seen rest
    else r :: dedup_first_aux (r.ts :: seen) rest

/-- De-duplication with `keep='first'` starting from no kept timestamps. -/
def dedup_first (l : List Row) : List Row := dedup_first_aux [] l

/-- Row comparison by timestamp, the sort key of `sort_index()`. -/
def row_le (a b : Row) : Prop := a.ts ≤ b.ts

instance : DecidableRel row_le := fun a b => inferInstanceAs (Decidable (a.ts ≤ b.ts))

instance : IsTotal Row row_le := ⟨fun a b => Int.le_total a.ts b.ts⟩

instance : IsTrans Row row_le := ⟨fun _ _ _ h1 h2 => le_trans h1 h2⟩

/-- The stitching step of `get_hist_large_date_range` (`src/genspark.py`
lines 200-202): `pd.concat(all_data)`, drop duplicated timestamps keeping
the first occurrence, then `sort_index()` ascending.  After duplicates are
removed the timestamps are distinct, so the sorted order is unique and any
correct sort models `sort_index`. -/
def stitch_combine (tables : List (List Row)) : List Row :=
  List.insertionSort row_le (dedup_first tables.flatten)

/-- `get_hist_large_date_range` (`src/genspark.py` lines 163-224): plan the
chunks, fetch each through `get_hist_by_date_range`, keep the non-`None`
non-empty results, and either stitch them or return `None` when nothing was
collected. -/
def get_hist_large_date_range (fetch : Int → Option (List Row)) (i : Interval)
    (s e : Int) (cd : Nat) : Option (List Row) :=
  let all_data := (plan_chunks s e cd).filterMap fun c =>
    match get_hist_by_date_range fetch i c.1 c.2 with
    | none => none
    | some d => if d.isEmpty then none else some d
  if all_data.isEmpty then none else some (stitch_combine all_data)

/-! ## src/split_and_download.py -/

/-- The `bars_per_day` dict of `calculate_bars_needed`
(`src/split_and_download.py` lines 12-23). -/
def bars_per_day_split : List (String × ℚ) :=
  [("1min", 1440), ("3min", 480), ("5min", 288), ("15min", 96), ("30min", 48),
   ("1h", 24), ("4h", 6), ("1d", 1), ("1w", 1 / 7), ("1M", 1 / 30)]

/-- `calculate_bars_needed(start, end, interval_str)`
(`src/split_and_download.py` lines 6-26):
`int(total_days * bars_per_day.get(interval_str, 288))`. -/
def calculate_bars_needed (s e : Int) (istr : String) : Int :=
  pyInt ((date_diff_days s e : ℚ) *
    (((bars_per_day_split.find? fun p => p.1 == istr).map Prod.snd).getD 288))

/-- The `interval_map` of the `__main__` block of
`src/split_and_download.py` (lines 163-174). -/
def interval_map : List (String × Interval) :=
  [("1min", .in_1_minute), ("3min", .in_3_minute), ("5min", .in_5_minute),
   ("15min", .in_15_minute), ("30min", .in_30_minute), ("1h", .in_1_hour),
   ("4h", .in_4_hour), ("1d", .in_daily), ("1w", .in_weekly), ("1M", .in_monthly)]

/-- The `if interval_str not in interval_map: exit(1)` check
(`src/split_and_download.py` lines 176-180); `Except.error` models the
`exit(1)`. -/
def validate_interval (istr : String) : Except String Interval :=
  match interval_map.find? fun p => p.1 == istr with
  | some p => .ok p.2
  | none => .error "Invalid interval"

/-- `apply_timezone_adjustments` (`src/split_and_download.py` lines
109-133).  `loc` models the series-level `dt.tz_localize('America/Sao_Paulo')`:
it either relabels the whole column or raises (`none`), which the
`except` block turns into keeping the unassigned column.  `cv` models
`dt.tz_convert('UTC')`, which on an already-localized series and the fixed
literal `'UTC'` cannot raise, hence is total. -/
def apply_timezone_adjustments (loc : List Row → Option (List Row))
    (cv : List Row → List Row) (adj conv : Bool) (df : List Row) : List Row :=
  if !adj || df.isEmpty then df
  else
    match loc df with
    | none => df
    | some d1 => if conv then cv d1 else d1

/-! ## Theorems -/

/-- Closed form of `count_bars`: the bar count for `[s, e)` at positive
period `p` is the floor of `(e - s) / p`, plus one unless `p` divides
`e - s` exactly. -/
theorem count_bars_closed (s e p : Int) (hp : 0 < p) (hse : s ≤ e) :
    count_bars s e p =
      if p.toNat ∣ (e - s).toNat then (e - s).toNat / p.toNat
      else (e - s).toNat / p.toNat + 1 := by
  have hcond : 0 < p ∧ s ≤ e := ⟨hp, hse⟩
  have hP : ((p.toNat : Nat) : Int) = p := Int.toNat_of_nonneg hp.le
  have hD : (((e - s).toNat : Nat) : Int) = e - s := Int.toNat_of_nonneg (by omega)
  set D := (e - s).toNat with hDdef
  set P := p.toNat with hPdef
  have hrange : date_range s e p =
      (List.range (D / P + 1)).map fun k : Nat => s + (k : Int) * p := by
    rw [date_range, if_pos hcond]
  have hlast : (date_range s e p).getLast? = some (s + ((D / P : Nat) : Int) * p) := by
    rw [hrange, List.range_succ, List.map_append]
    simp
  have hlen : (date_range s e p).length = D / P + 1 := by
    rw [hrange, List.length_map, List.length_range]
  have hdvd_iff : s + ((D / P : Nat) : Int) * p = e ↔ P ∣ D := by
    have h1 : s + ((D / P : Nat) : Int) * p = e ↔ ((D / P : Nat) : Int) * p = e - s := by
      constructor <;> intro h <;> linarith
    have h2 : ((D / P : Nat) : Int) * ((P : Nat) : Int) = ((D : Nat) : Int) ↔
        D / P * P = D := by
      exact_mod_cast Iff.rfl
    rw [h1, ← hD, ← hP, h2]
    constructor
    · intro h
      exact ⟨D / P, h.symm.trans (Nat.mul_comm _ _)⟩
    · exact Nat.div_mul_cancel
  simp only [count_bars, hlast, hlen]
  by_cases hdvd : P ∣ D
  · rw [if_pos (hdvd_iff.mpr hdvd), if_pos hdvd]
    exact Nat.add_sub_cancel _ _
  · rw [if_neg (fun h => hdvd (hdvd_iff.mp h)), if_neg hdvd]

/-- C4: `count_bars(start, end, period)` counts exactly the points of the
arithmetic sequence `start, start + period, ...` that are strictly below
`end` — stated as: the `k`-th point exists below `end` iff `k` is below the
count.  In particular `count_bars t t p = 0`, and a one-hour range at a
five-minute period yields 12 bars. -/
theorem count_bars_spec (s e p : Int) (k : Nat) (hp : 0 < p) (hse : s ≤ e) :
    (k < count_bars s e p ↔ s + (k : Int) * p < e) ∧
    count_bars s s p = 0 ∧
    count_bars 0 3600 300 = 12 := by
  refine ⟨?_, by rw [count_bars_closed s s p hp le_rfl]; simp, by decide⟩
  · rw [count_bars_closed s e p hp hse]
    have hP : ((p.toNat : Nat) : Int) = p := Int.toNat_of_nonneg hp.le
    have hD : (((e - s).toNat : Nat) : Int) = e - s := Int.toNat_of_nonneg (by omega)
    set D := (e - s).toNat
    set P := p.toNat
    have hP0 : 0 < P := by omega
    have hcast : s + (k : Int) * p < e ↔ k * P < D := by
      have h1 : s + (k : Int) * p < e ↔ (k : Int) * p < e - s := by
        constructor <;> intro h <;> linarith
      have h2 : (k : Int) * ((P : Nat) : Int) < ((D : Nat) : Int) ↔ k * P < D := by
        exact_mod_cast Iff.rfl
      rw [h1, ← hD, ← hP, h2]
    rw [hcast]
    by_cases hdvd : P ∣ D
    · rw [if_pos hdvd, Nat.lt_div_iff_mul_lt hdvd, Nat.mul_comm]
    · rw [if_neg hdvd]
      have hle : k ≤ D / P ↔ k * P ≤ D := Nat.le_div_iff_mul_le hP0
      constructor
      · intro h
        have h2 : k * P ≤ D := hle.mp (by omega)
        rcases Nat.lt_or_ge (k * P) D with h3 | h3
        · exact h3
        · have heq : k * P = D := le_antisymm h2 h3
          exact absurd ⟨k, by rw [← heq]; ring⟩ hdvd
      · intro h
        have := hle.mpr h.le
        omega

/-- C4 witness: the characterization at `s = 0`, `e = 3600`, `p = 300`,
`k = 7`. -/
theorem count_bars_spec_witness :
    (0 : Int) < 300 ∧ (0 : Int) ≤ 3600 ∧
    ((7 < count_bars 0 3600 300 ↔ (0 : Int) + (7 : Nat) * 300 < 3600) ∧
      count_bars 0 0 300 = 0 ∧
      count_bars 0 3600 300 = 12) :=
  ⟨by decide, by decide, count_bars_spec 0 3600 300 7 (by decide) (by decide)⟩

/-- C3 (amended): the per-chunk date filter keeps exactly the rows with
`chunk.start ≤ t ≤ chunk.end` — a closed interval, so a row whose timestamp
equals `chunk.end` is kept, not discarded. -/
theorem filter_date_range_mem (s e : Int) (df : List Row) (r : Row) :
    r ∈ filter_date_range s e df ↔ r ∈ df ∧ s ≤ r.ts ∧ r.ts ≤ e := by
  simp [filter_date_range, List.mem_filter]

/-- C3 counterexample: a row with timestamp exactly `chunk.end` (here 10)
survives the filter, contradicting the half-open `[start, end)` claim. -/
theorem filter_date_range_keeps_end_cex :
    filter_date_range 0 10 [⟨10, 0⟩] = [⟨10, 0⟩] ∧
    filter_date_range 0 10 [⟨10, 0⟩] ≠ [] := by
  decide

/-- C7: if the timezone relabeling step raises (`loc df = none`), the
adjustment operation returns the input table unmodified, for every
combination of flags. -/
theorem tz_failure_returns_unmodified (loc : List Row → Option (List Row))
    (cv : List Row → List Row) (adj conv : Bool) (df : List Row)
    (h : loc df = none) :
    apply_timezone_adjustments loc cv adj conv df = df := by
  rw [apply_timezone_adjustments]
  by_cases hb : (!adj || df.isEmpty) = true
  · rw [if_pos hb]
  · rw [if_neg hb, h]

/-- C7 witness: an always-failing localizer on a one-row table with both
flags set returns the table unchanged. -/
theorem tz_failure_returns_unmodified_witness :
    (fun _ : List Row => (none : Option (List Row))) [⟨0, 1⟩] = none ∧
    apply_timezone_adjustments (fun _ => none) id true true [⟨0, 1⟩] = [⟨0, 1⟩] :=
  ⟨rfl, tz_failure_returns_unmodified (fun _ => none) id true true [⟨0, 1⟩] rfl⟩

/-- C9: with the adjust flag false, or with an empty table, the timezone
adjustment is the identity regardless of the convert flag. -/
theorem tz_adjust_false_identity (loc : List Row → Option (List Row))
    (cv : List Row → List Row) (adj conv : Bool) (df : List Row) :
    apply_timezone_adjustments loc cv false conv df = df ∧
    apply_timezone_adjustments loc cv adj conv [] = [] := by
  refine ⟨rfl, ?_⟩
  cases adj <;> rfl

/-- Every chunk emitted by the loop lies inside `[cur, e]`, starts no
earlier than the cursor, and is non-degenerate when `chunk_days ≥ 1`. -/
theorem plan_chunks_aux_bounds (n : Nat) (cur e : Int) (cd : Nat) (hcd : 1 ≤ cd) :
    ∀ c ∈ plan_chunks_aux n cur e cd, cur ≤ c.1 ∧ c.1 < c.2 ∧ c.2 ≤ e := by
  induction n generalizing cur with
  | zero => simp [plan_chunks_aux]
  | succ n ih =>
    intro c hc
    rw [plan_chunks_aux] at hc
    by_cases h : cur < e
    · rw [if_pos h] at hc
      rcases List.mem_cons.mp hc with hhead | htail
      · subst hhead
        refine ⟨le_refl _, ?_, min_le_right _ _⟩
        simp only [secondsPerDay]
        omega
      · have := ih _ c htail
        simp only [secondsPerDay] at this ⊢
        omega
    · rw [if_neg h] at hc
      exact absurd hc (List.not_mem_nil c)

/-- When the cursor is still below the end and fuel remains, the first
emitted chunk starts exactly at the cursor. -/
theorem plan_chunks_aux_head (n : Nat) (cur e : Int) (cd : Nat) (hcur : cur < e)
    (hn : 0 < n) : ((plan_chunks_aux n cur e cd).head?.map Prod.fst) = some cur := by
  cases n with
  | zero => omega
  | succ n => rw [plan_chunks_aux, if_pos hcur]; rfl

/-- Consecutive chunks satisfy `next.start = prev.end + one day`. -/
theorem plan_chunks_aux_chain (n : Nat) (cur e : Int) (cd : Nat) :
    (plan_chunks_aux n cur e cd).Chain' fun p q => q.1 = p.2 + secondsPerDay := by
  induction n generalizing cur with
  | zero => simp [plan_chunks_aux]
  | succ n ih =>
    rw [plan_chunks_aux]
    by_cases h : cur < e
    · rw [if_pos h]
      rw [List.chain'_cons']
      refine ⟨?_, ih _⟩
      intro b hb
      set cur' := min (cur + (cd : Int) * secondsPerDay) e + secondsPerDay with hcur'
      cases n with
      | zero => simp [plan_chunks_aux] at hb
      | succ m =>
        by_cases h2 : cur' < e
        · have hh := plan_chunks_aux_head (m + 1) cur' e cd h2 (Nat.succ_pos m)
          rw [Option.mem_def] at hb
          rw [hb] at hh
          simpa using hh
        · rw [plan_chunks_aux, if_neg h2] at hb
          simp at hb
    · rw [if_neg h]
      exact List.chain'_nil

/-- No timestamp lies in more than one chunk. -/
theorem plan_chunks_aux_at_most_one (n : Nat) (cur e : Int) (cd : Nat) (t : Int)
    (hcd : 1 ≤ cd) :
    (plan_chunks_aux n cur e cd).countP (fun c => decide (c.1 ≤ t ∧ t ≤ c.2)) ≤ 1 := by
  induction n generalizing cur with
  | zero => simp [plan_chunks_aux]
  | succ n ih =>
    rw [plan_chunks_aux]
    by_cases h : cur < e
    · rw [if_pos h, List.countP_cons]
      set ce := min (cur + (cd : Int) * secondsPerDay) e with hce
      by_cases hin : cur ≤ t ∧ t ≤ ce
      · have hzero :
            (plan_chunks_aux n (ce + secondsPerDay) e cd).countP
              (fun c => decide (c.1 ≤ t ∧ t ≤ c.2)) = 0 := by
          rw [List.countP_eq_zero]
          intro c hc
          have hb := plan_chunks_aux_bounds n (ce + secondsPerDay) e cd hcd c hc
          simp only [decide_eq_true_eq]
          simp only [secondsPerDay] at hb
          omega
        rw [hzero]
        split <;> omega
      · have : (decide ((cur, ce).1 ≤ t ∧ t ≤ (cur, ce).2)) = false := by
          simpa using hin
        simp only [this]
        simpa using ih _
    · rw [if_neg h]
      simp

/-- Given enough fuel, every timestamp of `[cur, e)` is either inside some
emitted chunk or strictly inside the one-day window following a chunk's
end. -/
theorem plan_chunks_aux_coverage (n : Nat) (cur e : Int) (cd : Nat) (t : Int)
    (hct : cur ≤ t) (hte : t < e) (hfuel : (e - cur).toNat ≤ n) :
    (∃ c ∈ plan_chunks_aux n cur e cd, c.1 ≤ t ∧ t ≤ c.2) ∨
    (∃ c ∈ plan_chunks_aux n cur e cd, c.2 < t ∧ t < c.2 + secondsPerDay) := by
  induction n generalizing cur with
  | zero => omega
  | succ n ih =>
    have hcur : cur < e := by omega
    rw [plan_chunks_aux, if_pos hcur]
    set ce := min (cur + (cd : Int) * secondsPerDay) e with hce
    have hcece : cur ≤ ce := by
      simp only [hce, secondsPerDay]
      omega
    by_cases h1 : t ≤ ce
    · exact Or.inl ⟨(cur, ce), List.mem_cons_self _ _, hct, h1⟩
    · by_cases h2 : t < ce + secondsPerDay
      · exact Or.inr ⟨(cur, ce), List.mem_cons_self _ _, by omega, h2⟩
      · have hstep : ce + secondsPerDay ≤ t := by omega
        have hfuel' : (e - (ce + secondsPerDay)).toNat ≤ n := by
          simp only [secondsPerDay] at hcece ⊢
          omega
        rcases ih (ce + secondsPerDay) hstep hfuel' with ⟨c, hc, hcc⟩ | ⟨c, hc, hcc⟩
        · exact Or.inl ⟨c, List.mem_cons_of_mem _ hc, hcc⟩
        · exact Or.inr ⟨c, List.mem_cons_of_mem _ hc, hcc⟩

/-- C1 (amended): the chunks of the chunking loop, in the order produced
(ascending in time), are non-degenerate sub-intervals of `[start, end]`
with the first chunk starting at `start`; consecutive chunks are separated
by exactly one day (`next.start = prev.end + 1 day`), so no timestamp lies
in more than one chunk — but the concatenation does **not** reconstruct
`[start, end)`: each timestamp of the range is either in exactly one chunk
or strictly inside a one-day gap following a chunk's end. -/
theorem plan_chunks_properties (s e : Int) (cd : Nat) (t : Int)
    (hcd : 1 ≤ cd) (hst : s ≤ t) (hte : t < e) :
    ((plan_chunks s e cd).countP (fun c => decide (c.1 ≤ t ∧ t ≤ c.2)) ≤ 1) ∧
    ((plan_chunks s e cd).Chain' fun p q => q.1 = p.2 + secondsPerDay) ∧
    (∀ c ∈ plan_chunks s e cd, s ≤ c.1 ∧ c.1 < c.2 ∧ c.2 ≤ e) ∧
    ((plan_chunks s e cd).head?.map Prod.fst = some s) ∧
    ((∃ c ∈ plan_chunks s e cd, c.1 ≤ t ∧ t ≤ c.2) ∨
      (∃ c ∈ plan_chunks s e cd, c.2 < t ∧ t < c.2 + secondsPerDay)) := by
  refine ⟨plan_chunks_aux_at_most_one _ s e cd t hcd,
    plan_chunks_aux_chain _ s e cd,
    plan_chunks_aux_bounds _ s e cd hcd,
    plan_chunks_aux_head _ s e cd (by omega) (by omega),
    plan_chunks_aux_coverage _ s e cd t hst hte le_rfl⟩

/-- C1 witness: properties at `start = 0`, `end = 40` days, `chunk_days =
30`, `t = 1` day. -/
theorem plan_chunks_properties_witness :
    1 ≤ 30 ∧ (0 : Int) ≤ 86400 ∧ (86400 : Int) < 40 * 86400 ∧
    (((plan_chunks 0 (40 * 86400) 30).countP
        (fun c => decide (c.1 ≤ (86400 : Int) ∧ (86400 : Int) ≤ c.2)) ≤ 1) ∧
      ((plan_chunks 0 (40 * 86400) 30).Chain' fun p q => q.1 = p.2 + secondsPerDay) ∧
      (∀ c ∈ plan_chunks 0 (40 * 86400) 30, (0 : Int) ≤ c.1 ∧ c.1 < c.2 ∧ c.2 ≤ 40 * 86400) ∧
      ((plan_chunks 0 (40 * 86400) 30).head?.map Prod.fst = some (0 : Int)) ∧
      ((∃ c ∈ plan_chunks 0 (40 * 86400) 30, c.1 ≤ (86400 : Int) ∧ (86400 : Int) ≤ c.2) ∨
        (∃ c ∈ plan_chunks 0 (40 * 86400) 30,
          c.2 < (86400 : Int) ∧ (86400 : Int) < c.2 + secondsPerDay))) :=
  ⟨by decide, by decide, by decide,
    plan_chunks_properties 0 (40 * 86400) 30 86400 (by decide) (by decide) (by decide)⟩

/-- C1 counterexample: with `start = 0`, `end = 40` days and `chunk_days =
30`, the timestamp `30 days + 1 hour` lies inside `[start, end)` but inside
no planned chunk — the chunks are `[0, 30 days]` and `[31 days, 40 days]`,
leaving the day after `chunk_end` uncovered, so the chunk ranges do not
reconstruct `[start, end)` gap-free. -/
theorem plan_chunks_gap_cex :
    (0 : Int) ≤ 30 * 86400 + 3600 ∧ (30 * 86400 + 3600 : Int) < 40 * 86400 ∧
    (plan_chunks 0 (40 * 86400) 30).all
      (fun c => !decide (c.1 ≤ (30 * 86400 + 3600 : Int) ∧
        (30 * 86400 + 3600 : Int) ≤ c.2)) = true := by
  refine ⟨by decide, by decide, by decide⟩

/-- If every single-range fetch hands back `None`, the chunked operation
returns `None`. -/
theorem get_hist_large_of_all_none (fetch : Int → Option (List Row)) (i : Interval)
    (s e : Int) (cd : Nat) (hf : ∀ a b, get_hist_by_date_range fetch i a b = none) :
    get_hist_large_date_range fetch i s e cd = none := by
  have hnil : ((plan_chunks s e cd).filterMap fun c =>
      match get_hist_by_date_range fetch i c.1 c.2 with
      | none => none
      | some d => if d.isEmpty then none else some d) = [] :=
    List.filterMap_eq_nil_iff.mpr fun c _ => by rw [hf]
  simp only [get_hist_large_date_range, hnil]
  rfl

/-- C2 (amended): when every chunk fetch yields no data — the vendor call
always returns an empty table, or always raises/returns `None` — the
chunked operation returns the null result `none` (the Python
`return None, None`), a normal return rather than an exception, but not an
explicitly empty table. -/
theorem get_hist_large_all_empty (i : Interval) (s e : Int) (cd : Nat) :
    get_hist_large_date_range (fun _ => some []) i s e cd = none ∧
    get_hist_large_date_range (fun _ => none) i s e cd = none :=
  ⟨get_hist_large_of_all_none _ i s e cd fun _ _ => rfl,
    get_hist_large_of_all_none _ i s e cd fun _ _ => rfl⟩

/-- C2 counterexample: with all chunk fetches empty on a 40-day range, the
result is `none` (Python `None`), which differs from `some []` (an
explicitly empty table). -/
theorem get_hist_large_all_empty_cex :
    get_hist_large_date_range (fun _ => some []) Interval.in_5_minute 0 (40 * 86400) 30 =
      none ∧
    (none : Option (List Row)) ≠ some [] := by
  refine ⟨by decide, by decide⟩

/-- C6 (amended): of the three invalid-input classes, only a
non-enumerated period string is rejected before planning
(`validate_interval` errors exactly on strings outside `interval_map`).  A
range with `start ≥ end` is *not* rejected: the chunked fetch runs
normally, plans zero chunks, attempts no fetch, and returns the ordinary
no-data result instead of failing. -/
theorem invalid_input_checks (istr : String) (fetch : Int → Option (List Row))
    (i : Interval) (s e : Int) (cd : Nat) (h : e ≤ s) :
    ((validate_interval istr).isOk = true ↔ istr ∈ interval_map.map Prod.fst) ∧
    plan_chunks s e cd = [] ∧
    get_hist_large_date_range fetch i s e cd = none := by
  have hplan : plan_chunks s e cd = [] := by
    rw [plan_chunks, show (e - s).toNat = 0 by omega]
    rfl
  refine ⟨?_, hplan, ?_⟩
  · have hiff : (interval_map.find? fun p => p.1 == istr).isSome = true ↔
        istr ∈ interval_map.map Prod.fst := by
      rw [List.find?_isSome]
      simp [List.mem_map, beq_iff_eq]
    rw [← hiff, validate_interval]
    rcases hf : interval_map.find? fun p => p.1 == istr with _ | p <;>
      simp [hf, Except.isOk, Except.toBool]
  · simp only [get_hist_large_date_range, hplan]
    rfl

/-- C6 witness: at the valid period string `"1w"` and the invalid range
`start = 5 days`, `end = 3 days`. -/
theorem invalid_input_checks_witness :
    (3 * 86400 : Int) ≤ 5 * 86400 ∧
    (((validate_interval "1w").isOk = true ↔ "1w" ∈ interval_map.map Prod.fst) ∧
      plan_chunks (5 * 86400) (3 * 86400) 30 = [] ∧
      get_hist_large_date_range (fun _ => none) Interval.in_daily
        (5 * 86400) (3 * 86400) 30 = none) :=
  ⟨by decide,
    invalid_input_checks "1w" (fun _ => none) Interval.in_daily
      (5 * 86400) (3 * 86400) 30 (by decide)⟩

/-- C6 counterexample: on the invalid range `start = 10 days > end = 0` the
chunked fetch does not fail: it plans zero chunks and returns the same
no-data value `none` that a legitimate empty run produces — there is no
rejection of `start ≥ end` before planning. -/
theorem invalid_range_not_rejected_cex :
    get_hist_large_date_range (fun _ => some [⟨0, 0⟩]) Interval.in_5_minute
      (10 * 86400) 0 30 = none ∧
    plan_chunks (10 * 86400) 0 30 = [] := by
  refine ⟨by decide, by decide⟩

/-- Every row kept by de-duplication comes from the input list. -/
theorem dedup_first_aux_subset (seen : List Int) (l : List Row) :
    ∀ r ∈ dedup_first_aux seen l, r ∈ l := by
  induction l generalizing seen with
  | nil => simp [dedup_first_aux]
  | cons h t ih =>
    intro r hr
    rw [dedup_first_aux] at hr
    by_cases hs : h.ts ∈ seen
    · rw [if_pos hs] at hr
      exact List.mem_cons_of_mem _ (ih seen r hr)
    · rw [if_neg hs] at hr
      rcases List.mem_cons.mp hr with hr | hr
      · exact hr ▸ List.mem_cons_self _ _
      · exact List.mem_cons_of_mem _ (ih _ r hr)

/-- No kept row carries a timestamp that was already in `seen`. -/
theorem dedup_first_aux_not_seen (seen : List Int) (l : List Row) :
    ∀ r ∈ dedup_first_aux seen l, r.ts ∉ seen := by
  induction l generalizing seen with
  | nil => simp [dedup_first_aux]
  | cons h t ih =>
    intro r hr
    rw [dedup_first_aux] at hr
    by_cases hs : h.ts ∈ seen
    · rw [if_pos hs] at hr
      exact ih seen r hr
    · rw [if_neg hs] at hr
      rcases List.mem_cons.mp hr with hr | hr
      · exact hr ▸ hs
      · intro hcontra
        exact ih _ r hr (List.mem_cons_of_mem _ hcontra)

/-- The kept rows have pairwise distinct timestamps. -/
theorem dedup_first_aux_pairwise (seen : List Int) (l : List Row) :
    (dedup_first_aux seen l).Pairwise fun a b => a.ts ≠ b.ts := by
  induction l generalizing seen with
  | nil => simp [dedup_first_aux]
  | cons h t ih =>
    rw [dedup_first_aux]
    by_cases hs : h.ts ∈ seen
    · rw [if_pos hs]
      exact ih seen
    · rw [if_neg hs]
      refine List.Pairwise.cons ?_ (ih _)
      intro b hb
      have := dedup_first_aux_not_seen _ _ b hb
      intro heq
      exact this (heq ▸ List.mem_cons_self _ _)

/-- A kept row is the first row of the input bearing its timestamp:
`keep='first'` semantics. -/
theorem dedup_first_aux_find (seen : List Int) (l : List Row) :
    ∀ r ∈ dedup_first_aux seen l, l.find? (fun x => x.ts == r.ts) = some r := by
  induction l generalizing seen with
  | nil => simp [dedup_first_aux]
  | cons h t ih =>
    intro r hr
    rw [dedup_first_aux] at hr
    by_cases hs : h.ts ∈ seen
    · rw [if_pos hs] at hr
      have hne : h.ts ≠ r.ts := by
        intro heq
        exact dedup_first_aux_not_seen seen t r hr (heq ▸ hs)
      rw [List.find?_cons_of_neg _ (by simpa using hne)]
      exact ih seen r hr
    · rw [if_neg hs] at hr
      rcases List.mem_cons.mp hr with hr | hr
      · subst hr
        rw [List.find?_cons_of_pos _ (by simp)]
      · have hnotin := dedup_first_aux_not_seen _ _ r hr
        have hne : h.ts ≠ r.ts := by
          intro heq
          exact hnotin (heq ▸ List.mem_cons_self _ _)
        rw [List.find?_cons_of_neg _ (by simpa using hne)]
        exact ih _ r hr

/-- De-duplication loses no timestamp: a timestamp present in the input is
in `seen` already or still present after de-duplication. -/
theorem dedup_first_aux_ts_mem (seen : List Int) (l : List Row) (t : Int)
    (hex : ∃ x ∈ l, x.ts = t) :
    t ∈ seen ∨ ∃ x ∈ dedup_first_aux seen l, x.ts = t := by
  induction l generalizing seen with
  | nil => simp at hex
  | cons h tl ih =>
    rw [dedup_first_aux]
    rcases hex with ⟨x, hx, hxt⟩
    by_cases hs : h.ts ∈ seen
    · rw [if_pos hs]
      rcases List.mem_cons.mp hx with hx | hx
      · exact Or.inl (by rw [← hxt, hx]; exact hs)
      · exact ih seen ⟨x, hx, hxt⟩
    · rw [if_neg hs]
      rcases List.mem_cons.mp hx with hx | hx
      · exact Or.inr ⟨h, List.mem_cons_self _ _, by rw [← hxt, hx]⟩
      · rcases ih (h.ts :: seen) ⟨x, hx, hxt⟩ with hseen | ⟨y, hy, hyt⟩
        · rcases List.mem_cons.mp hseen with hseen | hseen
          · exact Or.inr ⟨h, List.mem_cons_self _ _, hseen.symm⟩
          · exact Or.inl hseen
        · exact Or.inr ⟨y, List.mem_cons_of_mem _ hy, hyt⟩

/-- C5: the stitched table is strictly ascending in timestamp (hence
sorted with no duplicate timestamps — the BarTable invariant); every
surviving row is the *first* row of the concatenation bearing its
timestamp (first occurrence wins); and stitching neither invents nor loses
timestamps. -/
theorem stitch_combine_invariant (tables : List (List Row)) :
    ((stitch_combine tables).Pairwise fun a b => a.ts < b.ts) ∧
    (∀ r ∈ stitch_combine tables,
      tables.flatten.find? (fun x => x.ts == r.ts) = some r) ∧
    (∀ t : Int, (∃ x ∈ tables.flatten, x.ts = t) ↔
      ∃ x ∈ stitch_combine tables, x.ts = t) := by
  have hperm : List.Perm (stitch_combine tables) (dedup_first tables.flatten) :=
    List.perm_insertionSort row_le _
  have hsorted : (stitch_combine tables).Pairwise row_le :=
    List.sorted_insertionSort row_le _
  have hsymm : Symmetric fun a b : Row => a.ts ≠ b.ts := fun _ _ h => h.symm
  have hne : (stitch_combine tables).Pairwise fun a b : Row => a.ts ≠ b.ts :=
    (hperm.pairwise_iff @hsymm).mpr (dedup_first_aux_pairwise [] _)
  refine ⟨?_, ?_, ?_⟩
  · exact (hsorted.and hne).imp fun h => lt_of_le_of_ne h.1 h.2
  · intro r hr
    exact dedup_first_aux_find [] _ r (hperm.mem_iff.mp hr)
  · intro t
    constructor
    · intro hex
      rcases dedup_first_aux_ts_mem [] tables.flatten t hex with hseen | ⟨x, hx, hxt⟩
      · simp at hseen
      · exact ⟨x, hperm.mem_iff.mpr hx, hxt⟩
    · intro ⟨x, hx, hxt⟩
      exact ⟨x, dedup_first_aux_subset [] _ x (hperm.mem_iff.mp hx), hxt⟩

/-- The executable `Rat.floor` agrees with the mathematical floor. -/
theorem rat_floor_eq_intFloor (q : ℚ) : q.floor = ⌊q⌋ :=
  (Rat.floor_def' q).trans Rat.floor_def.symm

/-- C8: the weekly and monthly bar-count estimates of
`calculate_bars_needed` are computed with the fixed fractional divisors
`1/7` and `1/30` — the day count multiplied by `1/7` (resp. `1/30`) and
truncated to an integer, i.e. exactly `⌊days / 7⌋` (resp. `⌊days / 30⌋`),
characterized below by the two-sided bounds; and the `bars_per_day` table
of `genspark.py` carries the same fixed entries `1/7` and `1/30` — no
calendar-aware count anywhere. -/
theorem weekly_monthly_divisors (s e : Int) (h : s ≤ e) :
    7 * calculate_bars_needed s e "1w" ≤ date_diff_days s e ∧
    date_diff_days s e < 7 * (calculate_bars_needed s e "1w" + 1) ∧
    30 * calculate_bars_needed s e "1M" ≤ date_diff_days s e ∧
    date_diff_days s e < 30 * (calculate_bars_needed s e "1M" + 1) ∧
    bars_per_day Interval.in_weekly = 1 / 7 ∧
    bars_per_day Interval.in_monthly = 1 / 30 := by
  have hd : 0 ≤ date_diff_days s e := by
    rw [date_diff_days, secondsPerDay]
    exact Int.fdiv_nonneg (by omega) (by norm_num)
  set d := date_diff_days s e with hddef
  have hW : calculate_bars_needed s e "1w" = pyInt ((d : ℚ) * (1 / 7)) := rfl
  have hM : calculate_bars_needed s e "1M" = pyInt ((d : ℚ) * (1 / 30)) := rfl
  have hcast : (0 : ℚ) ≤ (d : ℚ) := by exact_mod_cast hd
  have hfloor7 : pyInt ((d : ℚ) * (1 / 7)) = d / 7 := by
    have h0 : (0 : ℚ) ≤ (d : ℚ) * (1 / 7) := mul_nonneg hcast (by norm_num)
    rw [pyInt, if_pos h0, rat_floor_eq_intFloor, mul_one_div]
    have h7 := Rat.floor_intCast_div_natCast d 7
    norm_num at h7 ⊢
    exact h7
  have hfloor30 : pyInt ((d : ℚ) * (1 / 30)) = d / 30 := by
    have h0 : (0 : ℚ) ≤ (d : ℚ) * (1 / 30) := mul_nonneg hcast (by norm_num)
    rw [pyInt, if_pos h0, rat_floor_eq_intFloor, mul_one_div]
    have h30 := Rat.floor_intCast_div_natCast d 30
    norm_num at h30 ⊢
    exact h30
  refine ⟨?_, ?_, ?_, ?_, rfl, rfl⟩ <;> simp only [hW, hM, hfloor7, hfloor30] <;> omega

/-- C8 witness: the divisor characterization at `s = 0`, `e = 100` days. -/
theorem weekly_monthly_divisors_witness :
    (0 : Int) ≤ 100 * 86400 ∧
    (7 * calculate_bars_needed 0 (100 * 86400) "1w" ≤ date_diff_days 0 (100 * 86400) ∧
      date_diff_days 0 (100 * 86400) <
        7 * (calculate_bars_needed 0 (100 * 86400) "1w" + 1) ∧
      30 * calculate_bars_needed 0 (100 * 86400) "1M" ≤ date_diff_days 0 (100 * 86400) ∧
      date_diff_days 0 (100 * 86400) <
        30 * (calculate_bars_needed 0 (100 * 86400) "1M" + 1) ∧
      bars_per_day Interval.in_weekly = 1 / 7 ∧
      bars_per_day Interval.in_monthly = 1 / 30) :=
  ⟨by decide, weekly_monthly_divisors 0 (100 * 86400) (by decide)⟩

/-- C10: the `n_bars` value passed to the vendor fetch by
`get_hist_by_date_range` is always within the closed interval
`[100, 5000]`, for every start, end and interval. -/
theorem n_bars_clamped (s e : Int) (i : Interval) :
    100 ≤ estimated_bars s e i ∧ estimated_bars s e i ≤ 5000 := by
  rw [estimated_bars]
  exact ⟨le_max_right _ _, max_le (min_le_right _ _) (by norm_num)⟩

end Tv

